import Mathlib

/-!
# mini_openmp: `parallel_for` and `SimpleThreadPool`

A shallow embedding of `src/parallel_for.hpp` and `src/thread_pool.hpp`.

* `long` is the 64-bit signed type of an LP64 platform, so that
  `chunk + n_threads - 1` is computed in `long`.  Its values are modelled as
  `Int` and the `unsigned int` worker count as `Nat`.  C++ `/` truncates
  toward zero, so it is `Int.tdiv`; a division by zero has no value and is
  reported as `Outcome.undefined`.
* `parallel_for` is embedded twice.  `chunkSize`, `scheduleLoop`,
  `ChunkTask.run` and `parallel_for` compute on the integers: they are the
  program wherever no operation overflows.  `chunkSize64`, `scheduleLoop64`,
  `ChunkTask.run64` and `parallel_for64` wrap every `+` and `-` to 64 bits and
  are the program on all `long` inputs; `scheduleLoop64_eq` and
  `chunkSize64_unit_step` relate the two.
* The callback `fn` is modelled by the list of indices it is invoked on.
* The completion barrier of `parallel_for` and the worker loop of
  `SimpleThreadPool` are interleaving models: an executable step function over
  an explicit state, one event per atomic action of the source.
-/

namespace MiniOpenMP

/-! ## `parallel_for`: partitioning arithmetic (parallel_for.hpp, lines 16-52) -/

/-- The macro `MIN(x, y) ((x) < (y) ? (x) : (y))` of parallel_for.hpp line 9. -/
def MIN (x y : Int) : Int := if x < y then x else y

/-- The closure `task` built at parallel_for.hpp line 39, reduced to the
captured values that decide which indices it visits: `[i, stop, chunk]`. -/
structure ChunkTask where
  i : Int
  stop : Int
  chunk : Int
deriving DecidableEq

/-- The loop `for (long j = i; j < hi; ++j) fn(j);` of line 40, as the list of
arguments handed to `fn`, in order.  The first argument bounds the number of
iterations. -/
def bodyLoop : Nat → Int → Int → List Int
  | 0, _, _ => []
  | fuel + 1, j, hi => if j < hi then j :: bodyLoop fuel (j + 1) hi else []

/-- The indices one task passes to `fn` (lines 40-41): `j` runs from `i` while
`j < MIN(i + chunk, stop)`.  The loop makes at most `MIN(i + chunk, stop) - i`
iterations, which is the bound handed to `bodyLoop`. -/
def ChunkTask.run (t : ChunkTask) : List Int :=
  bodyLoop (MIN (t.i + t.chunk) t.stop - t.i).toNat t.i (MIN (t.i + t.chunk) t.stop)

/-- The half-open sub-range `[i, MIN(i + chunk, stop))` a task iterates. -/
def ChunkTask.range (t : ChunkTask) : Int × Int :=
  (t.i, MIN (t.i + t.chunk) t.stop)

/-- The scheduling loop `for (long i = start; i < stop; i += chunk)` of lines
36-52, as the list of tasks handed to `pool.schedule`, in order.  The first
argument bounds the number of iterations. -/
def scheduleLoop : Nat → Int → Int → Int → List ChunkTask
  | 0, _, _, _ => []
  | fuel + 1, chunk, stop, i =>
    if i < stop then ⟨i, stop, chunk⟩ :: scheduleLoop fuel chunk stop (i + chunk) else []

/-- The value of `chunk` after lines 22-23, or `none` when one of the two
divisions has a zero divisor (`step = 0` at line 22, `n_threads = 0` at
line 23). -/
def chunkSize (n_threads : Nat) (start stop step : Int) : Option Int :=
  if step = 0 then none
  else if n_threads = 0 then none
  else
    let chunk := Int.tdiv (stop - start + step - 1) step
    some (Int.tdiv (chunk + (n_threads : Int) - 1) (n_threads : Int))

/-- What a call of `parallel_for` does, up to the scheduling of its tasks. -/
inductive Outcome where
  /-- Division by zero at line 22 or 23: undefined behaviour. -/
  | undefined : Outcome
  /-- The `throw std::invalid_argument` of line 27, before any scheduling. -/
  | invalid_argument : Outcome
  /-- The tasks handed to `pool.schedule`, in order; the call then waits for
  them at the barrier and returns. -/
  | returned (tasks : List ChunkTask) : Outcome
deriving DecidableEq

/-- The function `parallel_for` of parallel_for.hpp, lines 21-52.  Once
`chunk > 0` the scheduling loop makes at most `stop - start` iterations, which
is the bound handed to `scheduleLoop`. -/
def parallel_for (n_threads : Nat) (start stop step : Int) : Outcome :=
  match chunkSize n_threads start stop step with
  | none => Outcome.undefined
  | some chunk =>
    if chunk ≤ 0 then Outcome.invalid_argument
    else Outcome.returned (scheduleLoop (stop - start).toNat chunk stop start)

/-- All arguments `fn` receives from a list of tasks, task by task. -/
def visited : List ChunkTask → List Int
  | [] => []
  | t :: ts => t.run ++ visited ts

/-- The arguments `fn` receives in one call of `parallel_for`; empty when the
call schedules nothing. -/
def Outcome.indices : Outcome → List Int
  | Outcome.returned tasks => visited tasks
  | _ => []

/-- The number of tasks a call hands to `pool.schedule`. -/
def Outcome.numTasks : Outcome → Nat
  | Outcome.returned tasks => tasks.length
  | _ => 0

/-- The integers `lo, lo + 1, ..., lo + n - 1`. -/
def intsFrom (lo : Int) : Nat → List Int
  | 0 => []
  | n + 1 => lo :: intsFrom (lo + 1) n

/-- A list of half-open ranges tiles `[lo, hi)`: the first starts at `lo`, each
is non-empty and starts where the previous one ends, the last ends at `hi`. -/
def Tiles : Int → Int → List (Int × Int) → Prop
  | lo, hi, [] => lo = hi
  | lo, hi, r :: rs => r.1 = lo ∧ r.1 < r.2 ∧ r.2 ≤ hi ∧ Tiles r.2 hi rs

/-- Follows the spec's words (section 4.2): the indices
`start, start + step, start + 2 * step, ...` while still short of `stop`, for
a `step` whose sign agrees with the sign of `stop - start`. -/
def specIndices (start stop step : Int) : List Int :=
  ((List.range (stop - start).natAbs).map (fun k : Nat => start + (k : Int) * step)).takeWhile
    (fun x => if 0 < step then decide (x < stop) else decide (stop < x))

/-- Follows the spec's words: `ceil(a / b)`, the least integer not below the
exact quotient. -/
def specCeil (a b : Int) : Int := ⌈(a : ℚ) / (b : ℚ)⌉

/-! ## `parallel_for` on 64-bit `long`

The same lines with the results of `+` and `-` on `long` wrapped into
`[LONG_MIN, LONG_MAX]`, as two's-complement hardware does (signed overflow is
undefined in C++; the wrap is what the compiled code computes). -/

/-- The largest `long`, `2^63 - 1`. -/
def LONG_MAX : Int := 9223372036854775807

/-- The smallest `long`, `-2^63`. -/
def LONG_MIN : Int := -9223372036854775808

/-- The 64-bit two's-complement value of a mathematical result. -/
def wrap64 (x : Int) : Int :=
  (x + 9223372036854775808) % 18446744073709551616 - 9223372036854775808

/-- The loop of line 40 on `long`: `++j` wraps.  The first argument bounds the
number of iterations. -/
def bodyLoop64 : Nat → Int → Int → List Int
  | 0, _, _ => []
  | fuel + 1, j, hi => if j < hi then j :: bodyLoop64 fuel (wrap64 (j + 1)) hi else []

/-- The indices one task passes to `fn` (lines 40-41) on `long`: the bound is
`MIN(i + chunk, stop)` with `i + chunk` wrapped.  The loop counts up from `i`
to a bound that is a `long`, so it makes at most `bound - i` iterations. -/
def ChunkTask.run64 (t : ChunkTask) : List Int :=
  bodyLoop64 (MIN (wrap64 (t.i + t.chunk)) t.stop - t.i).toNat t.i
    (MIN (wrap64 (t.i + t.chunk)) t.stop)

/-- The half-open sub-range `[i, MIN(i + chunk, stop))` a task iterates, on
`long`. -/
def ChunkTask.range64 (t : ChunkTask) : Int × Int :=
  (t.i, MIN (wrap64 (t.i + t.chunk)) t.stop)

/-- The scheduling loop of lines 36-52 on `long`: `i += chunk` wraps, so the
loop need not end.  The result is the list of tasks scheduled in the first
`fuel` iterations and whether the loop has exited by then. -/
def scheduleLoop64 : Nat → Int → Int → Int → List ChunkTask × Bool
  | 0, _, stop, i => ([], decide (¬ i < stop))
  | fuel + 1, chunk, stop, i =>
    if i < stop then
      (⟨i, stop, chunk⟩ :: (scheduleLoop64 fuel chunk stop (wrap64 (i + chunk))).1,
       (scheduleLoop64 fuel chunk stop (wrap64 (i + chunk))).2)
    else ([], true)

/-- The value of `chunk` after lines 22-23 on `long`: every `+` and `-` wraps,
in the order C++ evaluates them.  `none` when a division has no value: a zero
divisor, or `LONG_MIN / -1`. -/
def chunkSize64 (n_threads : Nat) (start stop step : Int) : Option Int :=
  if step = 0 then none
  else if wrap64 (wrap64 (wrap64 (stop - start) + step) - 1) = LONG_MIN ∧ step = -1 then none
  else if n_threads = 0 then none
  else
    let chunk := Int.tdiv (wrap64 (wrap64 (wrap64 (stop - start) + step) - 1)) step
    some (Int.tdiv (wrap64 (wrap64 (chunk + (n_threads : Int)) - 1)) (n_threads : Int))

/-- The function `parallel_for` of parallel_for.hpp, lines 21-52, on `long`,
with the scheduling loop run for at most `fuel` iterations: `none` when the
loop is still running after that many. -/
def parallel_for64 (fuel : Nat) (n_threads : Nat) (start stop step : Int) : Option Outcome :=
  match chunkSize64 n_threads start stop step with
  | none => some Outcome.undefined
  | some chunk =>
    if chunk ≤ 0 then some Outcome.invalid_argument
    else if (scheduleLoop64 fuel chunk stop start).2 then
      some (Outcome.returned (scheduleLoop64 fuel chunk stop start).1)
    else none

/-- All arguments `fn` receives from a list of tasks on `long`, task by task. -/
def visited64 : List ChunkTask → List Int
  | [] => []
  | t :: ts => t.run64 ++ visited64 ts

/-- No signed operation of `parallel_for(pool, start, stop, 1, fn)` overflows:
`start` and `stop` are `long` values, the largest intermediate result of lines
22-23, `stop - start + n_threads`, is at most `LONG_MAX`, and so is `i + chunk`
for every `i = start + m * chunk` the scheduling loop reaches. -/
def NoOverflow (n_threads : Nat) (start stop : Int) : Prop :=
  LONG_MIN ≤ start ∧ stop ≤ LONG_MAX ∧
  stop - start + (n_threads : Int) ≤ LONG_MAX ∧
  ∀ chunk, chunkSize n_threads start stop 1 = some chunk →
    ∀ m : Nat, start + (m : Int) * chunk < stop → start + ((m : Int) + 1) * chunk ≤ LONG_MAX

/-! ## Completion barrier of one `parallel_for` call (parallel_for.hpp, lines 32-59) -/

/-- Where the initiating thread of a `parallel_for` call is. -/
inductive Initiator where
  /-- In the scheduling loop (lines 36-52) or just past it, before line 56. -/
  | scheduling : Initiator
  /-- Past `ctr.fetch_add(1)` of line 56, inside `cv.wait` of line 59. -/
  | waiting : Initiator
  /-- Returned to the caller, from line 57 or from line 59. -/
  | returned : Initiator
deriving DecidableEq

/-- The state of the barrier protocol: the atomic `ctr`, how many tasks have
been scheduled (lines 38 and 51 done), how many have run `fn` over their whole
sub-range (lines 40-41 done), how many have finished (line 43 done), how many
times `cv.notify_all` was called (line 47), and where the initiator is. -/
structure Barrier where
  ctr : Int
  scheduled : Nat
  executed : Nat
  finished : Nat
  notified : Nat
  initiator : Initiator
deriving DecidableEq

/-- The atomic actions of the protocol. -/
inductive BarrierEvent where
  /-- One iteration of the scheduling loop: `ctr.fetch_add(2)` (line 38) and
  `pool.schedule(task)` (line 51). -/
  | schedule : BarrierEvent
  /-- A worker completes the loop of lines 40-41 for one scheduled task. -/
  | runFn : BarrierEvent
  /-- A task that has run `fn` does `ctr.fetch_sub(2)` and, when the new value
  is 1, notifies (lines 43-48). -/
  | finish : BarrierEvent
  /-- The initiator, past the loop, does `ctr.fetch_add(1)` (line 56) and
  returns when the previous value was 0 (line 57). -/
  | register : BarrierEvent
  /-- The waiting initiator evaluates the predicate `ctr.load() == 1` of
  `cv.wait` (line 59) and returns when it holds. -/
  | observe : BarrierEvent
deriving DecidableEq

/-- Line 34: `std::atomic_long ctr{0}`, nothing scheduled yet. -/
def Barrier.init : Barrier :=
  { ctr := 0, scheduled := 0, executed := 0, finished := 0, notified := 0,
    initiator := Initiator.scheduling }

/-- One atomic action of a call whose scheduling loop makes `k` iterations;
`none` when the action is not enabled in the state. -/
def Barrier.step (k : Nat) (s : Barrier) : BarrierEvent → Option Barrier
  | BarrierEvent.schedule =>
    if s.initiator = Initiator.scheduling ∧ s.scheduled < k then
      some { s with ctr := s.ctr + 2, scheduled := s.scheduled + 1 }
    else none
  | BarrierEvent.runFn =>
    if s.executed < s.scheduled then some { s with executed := s.executed + 1 } else none
  | BarrierEvent.finish =>
    if s.finished < s.executed then
      some { s with ctr := s.ctr - 2, finished := s.finished + 1,
                    notified := if s.ctr - 2 = 1 then s.notified + 1 else s.notified }
    else none
  | BarrierEvent.register =>
    if s.initiator = Initiator.scheduling ∧ s.scheduled = k then
      some { s with ctr := s.ctr + 1,
                    initiator := if s.ctr = 0 then Initiator.returned else Initiator.waiting }
    else none
  | BarrierEvent.observe =>
    if s.initiator = Initiator.waiting then
      some { s with initiator := if s.ctr = 1 then Initiator.returned else Initiator.waiting }
    else none

/-- A sequence of atomic actions, i.e. one interleaving. -/
def Barrier.run (k : Nat) : Barrier → List BarrierEvent → Option Barrier
  | s, [] => some s
  | s, e :: es =>
    match Barrier.step k s e with
    | none => none
    | some s' => Barrier.run k s' es

/-- The number of scheduled tasks that have not yet done their `fetch_sub`. -/
def Barrier.outstanding (s : Barrier) : Nat := s.scheduled - s.finished

/-- The initiator's contribution to `ctr`: 1 once line 56 is done. -/
def Barrier.registered (s : Barrier) : Int :=
  if s.initiator = Initiator.scheduling then 0 else 1

/-! ## `SimpleThreadPool`: worker loop and teardown (thread_pool.hpp, lines 70-133) -/

/-- Where a worker thread is inside `worker_loop`. -/
inductive WorkerPc where
  /-- Blocked acquiring `mu_`: line 113 on entry, line 131 after a task. -/
  | locking : WorkerPc
  /-- At the test `while (!exiting_)` of line 114, holding `mu_`. -/
  | outer : WorkerPc
  /-- At the test `while (queue_.empty())` of line 117, holding `mu_`. -/
  | inner : WorkerPc
  /-- Inside `queue_cv_.wait(lck)` of line 119, `mu_` released. -/
  | waiting : WorkerPc
  /-- Back from `wait`, at the test `if (exiting_)` of line 120, holding `mu_`. -/
  | woken : WorkerPc
  /-- Executing `task.fn()` at line 130 for the task it popped, `mu_` released. -/
  | running (t : Nat) : WorkerPc
  /-- The function `worker_loop` has returned; the thread can be joined. -/
  | exited : WorkerPc
deriving DecidableEq

/-- The pool state: the FIFO `queue_` (tasks are named by numbers), the flag
`exiting_`, the holder of `mu_` among the workers, the workers, and two
histories: every task ever passed to `schedule` and every task whose `fn` has
run to completion. -/
structure Pool where
  queue : List Nat
  exiting : Bool
  mu : Option Nat
  workers : List WorkerPc
  scheduled : List Nat
  executed : List Nat
deriving DecidableEq

/-- The atomic actions on a pool. -/
inductive PoolEvent where
  /-- A call `schedule(t)` (lines 105-107): lock, `push_back`, notify, unlock. -/
  | schedule (t : Nat) : PoolEvent
  /-- The destructor's lines 72-75: lock, `exiting_ = true`, unlock, notify. -/
  | teardown : PoolEvent
  /-- Worker `w` advances to its next point in `worker_loop`. -/
  | worker (w : Nat) : PoolEvent
deriving DecidableEq

/-- A pool just constructed with `n` worker threads (lines 56-68): each thread
is about to enter `worker_loop`. -/
def Pool.init (n : Nat) : Pool :=
  { queue := [], exiting := false, mu := none, workers := List.replicate n WorkerPc.locking,
    scheduled := [], executed := [] }

/-- The next action of worker `w` in `worker_loop` (lines 113-133); `none` when
the worker is blocked or has exited.  A wake-up from `wait` may come at any
time (notification or spurious), but needs `mu_` back. -/
def Pool.workerStep (s : Pool) (w : Nat) : Option Pool :=
  match s.workers[w]? with
  | none => none
  | some WorkerPc.locking =>
    if s.mu = none then some { s with mu := some w, workers := s.workers.set w WorkerPc.outer }
    else none
  | some WorkerPc.outer =>
    if s.exiting then some { s with mu := none, workers := s.workers.set w WorkerPc.exited }
    else some { s with workers := s.workers.set w WorkerPc.inner }
  | some WorkerPc.inner =>
    match s.queue with
    | [] => some { s with mu := none, workers := s.workers.set w WorkerPc.waiting }
    | t :: q =>
      some { s with queue := q, mu := none, workers := s.workers.set w (WorkerPc.running t) }
  | some WorkerPc.waiting =>
    if s.mu = none then some { s with mu := some w, workers := s.workers.set w WorkerPc.woken }
    else none
  | some WorkerPc.woken =>
    if s.exiting then some { s with mu := none, workers := s.workers.set w WorkerPc.exited }
    else some { s with workers := s.workers.set w WorkerPc.inner }
  | some (WorkerPc.running t) =>
    some { s with executed := s.executed ++ [t], workers := s.workers.set w WorkerPc.locking }
  | some WorkerPc.exited => none

/-- One atomic action on the pool; `none` when it is not enabled. -/
def Pool.step (s : Pool) : PoolEvent → Option Pool
  | PoolEvent.schedule t =>
    if s.mu = none then some { s with queue := s.queue ++ [t], scheduled := s.scheduled ++ [t] }
    else none
  | PoolEvent.teardown =>
    if s.mu = none then some { s with exiting := true } else none
  | PoolEvent.worker w => Pool.workerStep s w

/-- A sequence of atomic actions, i.e. one interleaving. -/
def Pool.run : Pool → List PoolEvent → Option Pool
  | s, [] => some s
  | s, e :: es =>
    match Pool.step s e with
    | none => none
    | some s' => Pool.run s' es

/-- Teardown has completed: every `join` of line 78 has returned. -/
def Pool.allExited (s : Pool) : Prop := ∀ pc ∈ s.workers, pc = WorkerPc.exited

/-- The number of workers currently executing task `t`. -/
def Pool.runningCount (s : Pool) (t : Nat) : Nat := s.workers.count (WorkerPc.running t)

/-- The invariant of the barrier protocol for a call that schedules `k`
tasks. -/
def Barrier.Inv (k : Nat) (s : Barrier) : Prop :=
  s.finished ≤ s.executed ∧ s.executed ≤ s.scheduled ∧ s.scheduled ≤ k ∧
  s.ctr = 2 * (s.outstanding : Int) + s.registered ∧
  (s.initiator ≠ Initiator.scheduling → s.scheduled = k) ∧
  (s.initiator = Initiator.returned → s.finished = s.scheduled)

/-- The invariant of the pool: a worker has left `worker_loop` only if
`exiting_` is set, and every task ever scheduled is in the queue, held by a
running worker, or executed, with multiplicity. -/
def Pool.Inv (s : Pool) : Prop :=
  (WorkerPc.exited ∈ s.workers → s.exiting = true) ∧
  ∀ t, s.scheduled.count t = s.queue.count t + s.runningCount t + s.executed.count t

/-! ## Lemmas on the loops of `parallel_for` -/

theorem length_intsFrom (lo : Int) (n : Nat) : (intsFrom lo n).length = n := by
  induction n generalizing lo with
  | zero => rfl
  | succ n ih => simp [intsFrom, ih]

theorem mem_intsFrom (x lo : Int) (n : Nat) : x ∈ intsFrom lo n ↔ lo ≤ x ∧ x < lo + n := by
  induction n generalizing lo with
  | zero => simp [intsFrom]
  | succ n ih =>
    simp only [intsFrom, List.mem_cons, ih]
    push_cast
    omega

theorem count_intsFrom (x lo : Int) (n : Nat) :
    (intsFrom lo n).count x = if lo ≤ x ∧ x < lo + n then 1 else 0 := by
  induction n generalizing lo with
  | zero =>
    have h : ¬ (lo ≤ x ∧ x < lo) := by omega
    simp [intsFrom, h]
  | succ n ih =>
    simp only [intsFrom, List.count_cons, ih]
    push_cast
    by_cases h1 : lo = x
    · subst h1
      have h2 : ¬ (lo + 1 ≤ lo ∧ lo < lo + 1 + (n : Int)) := by omega
      have h3 : lo ≤ lo ∧ lo < lo + ((n : Int) + 1) := by omega
      simp [h2, h3]
    · have hb : (lo == x) = false := by simpa using h1
      by_cases h4 : lo + 1 ≤ x ∧ x < lo + 1 + (n : Int)
      · have h5 : lo ≤ x ∧ x < lo + ((n : Int) + 1) := by omega
        simp [h4, h5, hb]
      · have h5 : ¬ (lo ≤ x ∧ x < lo + ((n : Int) + 1)) := by omega
        simp [h4, h5, hb]

theorem intsFrom_append (lo : Int) (m n : Nat) :
    intsFrom lo m ++ intsFrom (lo + m) n = intsFrom lo (m + n) := by
  induction m generalizing lo with
  | zero => simp [intsFrom]
  | succ m ih =>
    have h := ih (lo + 1)
    have e : lo + 1 + (m : Int) = lo + ((m + 1 : Nat) : Int) := by push_cast; ring
    rw [e] at h
    rw [show m + 1 + n = (m + n) + 1 by omega]
    simp only [intsFrom, List.cons_append, h]

/-- The bound handed to `bodyLoop` is never exhausted: with at least `hi - j`
iterations allowed the loop visits `j, j + 1, ..., hi - 1` and stops because
its test fails. -/
theorem bodyLoop_eq (fuel : Nat) (j hi : Int) (h : (hi - j).toNat ≤ fuel) :
    bodyLoop fuel j hi = intsFrom j (hi - j).toNat := by
  induction fuel generalizing j with
  | zero =>
    have h0 : (hi - j).toNat = 0 := by omega
    simp [bodyLoop, h0, intsFrom]
  | succ f ih =>
    by_cases hlt : j < hi
    · have e : (hi - j).toNat = (hi - (j + 1)).toNat + 1 := by omega
      have hle : (hi - (j + 1)).toNat ≤ f := by omega
      simp only [bodyLoop, hlt, if_true, ih (j + 1) hle]
      rw [e, intsFrom]
    · have h0 : (hi - j).toNat = 0 := by omega
      simp [bodyLoop, hlt, h0, intsFrom]

theorem run_eq (t : ChunkTask) :
    t.run = intsFrom t.range.1 (t.range.2 - t.range.1).toNat := by
  unfold ChunkTask.run ChunkTask.range
  exact bodyLoop_eq _ _ _ (le_refl _)

/-- The bound handed to `scheduleLoop` is never exhausted when `chunk > 0`:
any two bounds of at least `stop - i` iterations give the same list of tasks. -/
theorem scheduleLoop_fuel (f g : Nat) (chunk stop i : Int) (hc : 0 < chunk)
    (hf : (stop - i).toNat ≤ f) (hg : (stop - i).toNat ≤ g) :
    scheduleLoop f chunk stop i = scheduleLoop g chunk stop i := by
  induction f generalizing g i with
  | zero =>
    have hlt : ¬ i < stop := by omega
    cases g with
    | zero => rfl
    | succ g => simp [scheduleLoop, hlt]
  | succ f ih =>
    by_cases hlt : i < stop
    · cases g with
      | zero => omega
      | succ g =>
        simp only [scheduleLoop, hlt, if_true]
        rw [ih g (i + chunk) (by omega) (by omega)]
    · cases g with
      | zero => simp [scheduleLoop, hlt]
      | succ g => simp [scheduleLoop, hlt]

/-- The tasks of the scheduling loop visit, in scheduling order, exactly
`i, i + 1, ..., stop - 1`. -/
theorem visited_scheduleLoop (fuel : Nat) (chunk stop i : Int) (hc : 0 < chunk)
    (h : (stop - i).toNat ≤ fuel) :
    visited (scheduleLoop fuel chunk stop i) = intsFrom i (stop - i).toNat := by
  induction fuel generalizing i with
  | zero =>
    have h0 : (stop - i).toNat = 0 := by omega
    simp [scheduleLoop, visited, h0, intsFrom]
  | succ f ih =>
    by_cases hlt : i < stop
    · simp only [scheduleLoop, hlt, if_true, visited]
      rw [ih (i + chunk) (by omega), run_eq]
      simp only [ChunkTask.range, MIN]
      by_cases hm : i + chunk < stop
      · simp only [hm, if_true]
        have e1 : i + chunk = i + ((i + chunk - i).toNat : Int) := by omega
        have e2 : (stop - i).toNat = (i + chunk - i).toNat + (stop - (i + chunk)).toNat := by
          omega
        rw [e2, ← intsFrom_append, ← e1]
      · simp only [hm, if_false]
        have e0 : (stop - (i + chunk)).toNat = 0 := by omega
        rw [e0]
        simp [intsFrom]
    · have h0 : (stop - i).toNat = 0 := by omega
      simp [scheduleLoop, visited, hlt, h0, intsFrom]

/-- The sub-ranges of the tasks of the scheduling loop tile `[i, stop)`. -/
theorem tiles_scheduleLoop (fuel : Nat) (chunk stop i : Int) (hc : 0 < chunk)
    (hi : i ≤ stop) (h : (stop - i).toNat ≤ fuel) :
    Tiles i stop ((scheduleLoop fuel chunk stop i).map ChunkTask.range) := by
  induction fuel generalizing i with
  | zero =>
    have h0 : i = stop := by omega
    simp [scheduleLoop, Tiles, h0]
  | succ f ih =>
    by_cases hlt : i < stop
    · simp only [scheduleLoop, hlt, if_true, List.map_cons, Tiles, ChunkTask.range, MIN]
      by_cases hm : i + chunk < stop
      · simp only [hm, if_true]
        exact ⟨trivial, by omega, by omega, ih (i + chunk) (by omega) (by omega)⟩
      · simp only [hm, if_false]
        refine ⟨trivial, hlt, le_refl _, ?_⟩
        have hn : ¬ i + chunk < stop := hm
        have hz : scheduleLoop f chunk stop (i + chunk) = [] := by
          cases f with
          | zero => rfl
          | succ f => simp [scheduleLoop, hn]
        rw [hz]
        simp [Tiles]
    · have h0 : i = stop := by omega
      simp [scheduleLoop, Tiles, hlt, h0]

/-- Every range of a tiling of `[lo, hi)` starts at or after `lo`. -/
theorem tiles_lower (lo hi : Int) (rs : List (Int × Int)) (h : Tiles lo hi rs) :
    ∀ b ∈ rs, lo ≤ b.1 := by
  induction rs generalizing lo with
  | nil => intro b hb; cases hb
  | cons r rs ih =>
    obtain ⟨h1, h2, _, ht⟩ := h
    intro b hb
    rcases List.mem_cons.mp hb with rfl | hb
    · omega
    · have := ih r.2 ht b hb
      omega

/-- Ranges that tile an interval are pairwise disjoint: each ends no later
than every later one starts. -/
theorem pairwise_of_tiles (lo hi : Int) (rs : List (Int × Int)) (h : Tiles lo hi rs) :
    rs.Pairwise (fun a b => a.2 ≤ b.1) := by
  induction rs generalizing lo with
  | nil => exact List.Pairwise.nil
  | cons r rs ih =>
    obtain ⟨_, _, _, ht⟩ := h
    exact List.Pairwise.cons (tiles_lower r.2 hi rs ht) (ih r.2 ht)

/-- With `step = 1`, a non-empty range and at least one worker, lines 22-23
compute a positive `chunk`. -/
theorem chunkSize_unit_step (N : Nat) (start stop : Int) (hN : 1 ≤ N) (h : start < stop) :
    ∃ chunk, chunkSize N start stop 1 = some chunk ∧ 0 < chunk := by
  have hN0 : N ≠ 0 := by omega
  refine ⟨_, by simp only [chunkSize, one_ne_zero, if_false, hN0]; rfl, ?_⟩
  have e : Int.tdiv (stop - start + 1 - 1) 1 = stop - start := by
    rw [Int.tdiv_one]; ring
  rw [e, Int.tdiv_eq_ediv (by omega) (by omega)]
  have hNpos : (0 : Int) < (N : Int) := by omega
  have := Int.le_ediv_of_mul_le hNpos (show (1 : Int) * (N : Int) ≤ stop - start + N - 1 by omega)
  omega

/-! ## Lemmas on the 64-bit loops -/

/-- A value inside `[LONG_MIN, LONG_MAX]` is its own 64-bit value. -/
theorem wrap64_of_fits (x : Int) (h1 : LONG_MIN ≤ x) (h2 : x ≤ LONG_MAX) : wrap64 x = x := by
  simp only [LONG_MIN, LONG_MAX] at h1 h2
  simp only [wrap64]
  omega

/-- The task loop never wraps: it counts up to a bound that is a `long`. -/
theorem bodyLoop64_eq (fuel : Nat) (j hi : Int) (hj : LONG_MIN ≤ j) (hhi : hi ≤ LONG_MAX) :
    bodyLoop64 fuel j hi = bodyLoop fuel j hi := by
  induction fuel generalizing j with
  | zero => rfl
  | succ f ih =>
    by_cases hlt : j < hi
    · have e : wrap64 (j + 1) = j + 1 := wrap64_of_fits _ (by omega) (by omega)
      simp only [bodyLoop64, bodyLoop, hlt, if_true, e]
      rw [ih (j + 1) (by omega)]
    · simp only [bodyLoop64, bodyLoop, hlt, if_false]

/-- A task whose `i + chunk` does not overflow visits on `long` what it visits
on the integers. -/
theorem run64_eq (t : ChunkTask) (h1 : LONG_MIN ≤ t.i) (h2 : LONG_MIN ≤ t.i + t.chunk)
    (h3 : t.i + t.chunk ≤ LONG_MAX) : t.run64 = t.run ∧ t.range64 = t.range := by
  have e : wrap64 (t.i + t.chunk) = t.i + t.chunk := wrap64_of_fits _ h2 h3
  have hm : MIN (t.i + t.chunk) t.stop ≤ LONG_MAX := by
    simp only [MIN]
    split <;> omega
  refine ⟨?_, ?_⟩
  · simp only [ChunkTask.run64, ChunkTask.run, e]
    exact bodyLoop64_eq _ _ _ h1 hm
  · simp only [ChunkTask.range64, ChunkTask.range, e]

/-- When no `i + chunk` overflows, the scheduling loop on `long` exits and
schedules the tasks it schedules on the integers, and each of them has the
same sub-range and visits the same indices. -/
theorem scheduleLoop64_eq (fuel : Nat) (chunk stop i : Int) (hc : 0 < chunk)
    (hi : LONG_MIN ≤ i) (hf : (stop - i).toNat ≤ fuel)
    (hno : ∀ m : Nat, i + (m : Int) * chunk < stop → i + ((m : Int) + 1) * chunk ≤ LONG_MAX) :
    scheduleLoop64 fuel chunk stop i = (scheduleLoop fuel chunk stop i, true) ∧
    ∀ t ∈ scheduleLoop fuel chunk stop i, t.run64 = t.run ∧ t.range64 = t.range := by
  induction fuel generalizing i with
  | zero =>
    have hlt : ¬ i < stop := by omega
    simp [scheduleLoop64, scheduleLoop, hlt]
  | succ f ih =>
    by_cases hlt : i < stop
    · have h0 := hno 0 (by simpa using hlt)
      have h0' : i + chunk ≤ LONG_MAX := by simpa using h0
      have e : wrap64 (i + chunk) = i + chunk := wrap64_of_fits _ (by omega) h0'
      have hno' : ∀ m : Nat, i + chunk + (m : Int) * chunk < stop →
          i + chunk + ((m : Int) + 1) * chunk ≤ LONG_MAX := by
        intro m hm
        have e1 : i + ((m + 1 : Nat) : Int) * chunk = i + chunk + (m : Int) * chunk := by
          push_cast; ring
        have e2 : i + (((m + 1 : Nat) : Int) + 1) * chunk
            = i + chunk + ((m : Int) + 1) * chunk := by
          push_cast; ring
        have := hno (m + 1) (by rw [e1]; exact hm)
        rw [e2] at this
        exact this
      obtain ⟨ih1, ih2⟩ := ih (i + chunk) (by omega) (by omega) hno'
      have hr := run64_eq ⟨i, stop, chunk⟩ hi (by show LONG_MIN ≤ i + chunk; omega) h0'
      refine ⟨?_, ?_⟩
      · simp only [scheduleLoop64, scheduleLoop, hlt, if_true, e, ih1]
      · intro t ht
        simp only [scheduleLoop, hlt, if_true, List.mem_cons] at ht
        rcases ht with rfl | ht
        · exact hr
        · exact ih2 t ht
    · simp [scheduleLoop64, scheduleLoop, hlt]

/-- Tasks that each visit the same indices on `long` as on the integers visit
the same indices together. -/
theorem visited64_eq (ts : List ChunkTask) (h : ∀ t ∈ ts, t.run64 = t.run) :
    visited64 ts = visited ts := by
  induction ts with
  | nil => rfl
  | cons t ts ih =>
    simp only [visited64, visited]
    rw [h t (List.mem_cons_self _ _), ih (fun u hu => h u (List.mem_cons_of_mem _ hu))]

/-- With `step = 1`, a non-empty range and no overflow, lines 22-23 compute on
`long` the value they compute on the integers. -/
theorem chunkSize64_unit_step (N : Nat) (start stop : Int) (hN : 1 ≤ N) (h : start < stop)
    (h1 : LONG_MIN ≤ start) (h2 : stop ≤ LONG_MAX)
    (h3 : stop - start + (N : Int) ≤ LONG_MAX) :
    chunkSize64 N start stop 1 = chunkSize N start stop 1 := by
  have hN0 : N ≠ 0 := by omega
  simp only [LONG_MIN, LONG_MAX] at h1 h2 h3
  have ea : wrap64 (stop - start) = stop - start := by simp only [wrap64]; omega
  have eb : wrap64 (stop - start + 1) = stop - start + 1 := by simp only [wrap64]; omega
  have ec : wrap64 (stop - start + 1 - 1) = stop - start + 1 - 1 := by
    simp only [wrap64]; omega
  have et : Int.tdiv (stop - start + 1 - 1) 1 = stop - start + 1 - 1 := Int.tdiv_one _
  have ed : wrap64 (stop - start + 1 - 1 + (N : Int)) = stop - start + 1 - 1 + (N : Int) := by
    simp only [wrap64]; omega
  have ee : wrap64 (stop - start + 1 - 1 + (N : Int) - 1)
      = stop - start + 1 - 1 + (N : Int) - 1 := by
    simp only [wrap64]; omega
  have hne : ¬ (stop - start + 1 - 1 = LONG_MIN ∧ (1 : Int) = -1) := by
    intro hh; exact absurd hh.2 (by decide)
  simp only [chunkSize64, chunkSize, one_ne_zero, if_false, hN0, ea, eb, ec, et, ed, ee, hne]

/-- From an even `long` the loop `for (i; i < LONG_MAX; i += 2)` never exits:
`i` stays even and `LONG_MAX` is odd. -/
theorem scheduleLoop64_never_exits (fuel : Nat) (i : Int) (h1 : LONG_MIN ≤ i)
    (h2 : i ≤ LONG_MAX) (h3 : i % 2 = 0) : (scheduleLoop64 fuel 2 LONG_MAX i).2 = false := by
  induction fuel generalizing i with
  | zero =>
    simp only [LONG_MIN, LONG_MAX] at h1 h2 ⊢
    have hlt : i < 9223372036854775807 := by omega
    simp [scheduleLoop64, hlt]
  | succ f ih =>
    have hlt : i < LONG_MAX := by
      simp only [LONG_MIN, LONG_MAX] at h1 h2 ⊢
      omega
    simp only [scheduleLoop64, hlt, if_true]
    apply ih
    · simp only [LONG_MIN, wrap64]; omega
    · simp only [LONG_MAX, wrap64]; omega
    · simp only [wrap64]; omega

/-! ## The barrier protocol -/

theorem barrier_inv_init (k : Nat) : Barrier.Inv k Barrier.init := by
  simp [Barrier.Inv, Barrier.init, Barrier.outstanding, Barrier.registered]

theorem barrier_inv_step (k : Nat) (s s' : Barrier) (e : BarrierEvent)
    (hs : Barrier.Inv k s) (h : Barrier.step k s e = some s') : Barrier.Inv k s' := by
  obtain ⟨h1, h2, h3, h4, h5, h6⟩ := hs
  simp only [Barrier.outstanding, Barrier.registered] at h4
  cases e with
  | schedule =>
    simp only [Barrier.step] at h
    split at h
    · rename_i hc
      obtain ⟨hi, hlt⟩ := hc
      cases h
      simp only [Barrier.Inv, Barrier.outstanding, Barrier.registered, hi] at h4 ⊢
      simp only [if_true] at h4 ⊢
      refine ⟨h1, by omega, by omega, by omega, by simp, by simp⟩
    · cases h
  | runFn =>
    simp only [Barrier.step] at h
    split at h
    · cases h
      simp only [Barrier.Inv, Barrier.outstanding, Barrier.registered]
      exact ⟨by omega, by omega, h3, h4, h5, h6⟩
    · cases h
  | finish =>
    simp only [Barrier.step] at h
    split at h
    · rename_i hc
      cases h
      simp only [Barrier.Inv, Barrier.outstanding, Barrier.registered]
      refine ⟨by omega, h2, h3, ?_, h5, ?_⟩
      · split at h4 <;> split <;> first | omega | contradiction
      · intro hr
        have := h6 hr
        omega
    · cases h
  | register =>
    simp only [Barrier.step] at h
    split at h
    · rename_i hc
      obtain ⟨hi, hk⟩ := hc
      cases h
      simp only [hi, if_true] at h4
      simp only [Barrier.Inv, Barrier.outstanding, Barrier.registered]
      refine ⟨h1, h2, h3, ?_, fun _ => hk, ?_⟩
      · split <;> split <;> simp_all
      · intro hr
        split at hr
        · omega
        · cases hr
    · cases h
  | observe =>
    simp only [Barrier.step] at h
    split at h
    · rename_i hi
      cases h
      simp only [hi] at h4
      simp only [Barrier.Inv, Barrier.outstanding, Barrier.registered]
      refine ⟨h1, h2, h3, ?_, fun _ => h5 (by simp [hi]), ?_⟩
      · split <;> simp_all
      · intro hr
        split at hr
        · simp at h4; omega
        · cases hr
    · cases h

theorem barrier_inv_run (k : Nat) (es : List BarrierEvent) (s s' : Barrier)
    (hs : Barrier.Inv k s) (h : Barrier.run k s es = some s') : Barrier.Inv k s' := by
  induction es generalizing s with
  | nil =>
    simp only [Barrier.run, Option.some.injEq] at h
    exact h ▸ hs
  | cons e es ih =>
    simp only [Barrier.run] at h
    split at h
    · cases h
    · rename_i t ht
      exact ih t (barrier_inv_step k s t e hs ht) h

/-! ## The worker loop -/

theorem count_set_worker (l : List WorkerPc) (w : Nat) (old new x : WorkerPc)
    (h : l[w]? = some old) :
    (l.set w new).count x + (if old = x then 1 else 0)
      = l.count x + (if new = x then 1 else 0) := by
  induction l generalizing w with
  | nil => simp at h
  | cons a l ih =>
    cases w with
    | zero =>
      simp only [List.getElem?_cons_zero, Option.some.injEq] at h
      subst h
      simp only [List.set_cons_zero, List.count_cons, beq_iff_eq]
      omega
    | succ w =>
      simp only [List.getElem?_cons_succ] at h
      have := ih w h
      simp only [List.set_cons_succ, List.count_cons]
      omega

theorem pool_inv_init (n : Nat) : Pool.Inv (Pool.init n) := by
  refine ⟨?_, ?_⟩
  · intro h
    simp [Pool.init] at h
  · intro t
    simp [Pool.init, Pool.runningCount, List.count_replicate]

/-- A worker moving from `old` to `new`, possibly taking a task from the queue
or recording one as executed, keeps the invariant when the move respects the
exit guard and the bookkeeping of tasks. -/
theorem pool_inv_move (s : Pool) (w : Nat) (old new : WorkerPc) (q ex : List Nat)
    (m : Option Nat) (hs : Pool.Inv s) (hw : s.workers[w]? = some old)
    (hexit : new = WorkerPc.exited → s.exiting = true)
    (hcount : ∀ t, q.count t + (if new = WorkerPc.running t then 1 else 0) + ex.count t
      = s.queue.count t + (if old = WorkerPc.running t then 1 else 0) + s.executed.count t) :
    Pool.Inv { s with queue := q, mu := m, workers := s.workers.set w new, executed := ex } := by
  obtain ⟨hx, hc⟩ := hs
  refine ⟨?_, ?_⟩
  · intro hm
    rcases List.mem_or_eq_of_mem_set hm with hm | hm
    · exact hx hm
    · exact hexit hm.symm
  · intro t
    have h1 := count_set_worker s.workers w old new (WorkerPc.running t) hw
    have h2 := hc t
    have h3 := hcount t
    simp only [Pool.runningCount] at h2 ⊢
    omega

theorem pool_inv_workerStep (s s' : Pool) (w : Nat) (hs : Pool.Inv s)
    (h : Pool.workerStep s w = some s') : Pool.Inv s' := by
  unfold Pool.workerStep at h
  split at h
  · cases h
  · rename_i hw
    split at h
    · cases h
      exact pool_inv_move s w _ _ s.queue s.executed (some w) hs hw (by simp) (by simp)
    · cases h
  · rename_i hw
    split at h
    · rename_i he
      cases h
      exact pool_inv_move s w _ _ s.queue s.executed none hs hw (fun _ => he) (by simp)
    · cases h
      exact pool_inv_move s w _ _ s.queue s.executed s.mu hs hw (by simp) (by simp)
  · rename_i hw
    split at h
    · cases h
      exact pool_inv_move s w _ _ s.queue s.executed none hs hw (by simp) (by simp)
    · rename_i t q hq
      cases h
      refine pool_inv_move s w _ _ q s.executed none hs hw (by simp) ?_
      intro u
      rw [hq]
      simp only [List.count_cons, WorkerPc.running.injEq, beq_iff_eq, reduceCtorEq, if_false]
      omega
  · rename_i hw
    split at h
    · cases h
      exact pool_inv_move s w _ _ s.queue s.executed (some w) hs hw (by simp) (by simp)
    · cases h
  · rename_i hw
    split at h
    · rename_i he
      cases h
      exact pool_inv_move s w _ _ s.queue s.executed none hs hw (fun _ => he) (by simp)
    · cases h
      exact pool_inv_move s w _ _ s.queue s.executed s.mu hs hw (by simp) (by simp)
  · rename_i t hw
    cases h
    refine pool_inv_move s w _ _ s.queue (s.executed ++ [t]) s.mu hs hw (by simp) ?_
    intro u
    simp only [List.count_append, List.count_cons, List.count_nil, WorkerPc.running.injEq,
      beq_iff_eq, reduceCtorEq, if_false]
    omega
  · cases h

theorem pool_inv_step (s s' : Pool) (e : PoolEvent) (hs : Pool.Inv s)
    (h : Pool.step s e = some s') : Pool.Inv s' := by
  cases e with
  | schedule t =>
    simp only [Pool.step] at h
    split at h
    · cases h
      obtain ⟨hx, hc⟩ := hs
      refine ⟨hx, ?_⟩
      intro u
      have := hc u
      simp only [Pool.runningCount, List.count_append] at this ⊢
      omega
    · cases h
  | teardown =>
    simp only [Pool.step] at h
    split at h
    · cases h
      exact ⟨fun _ => rfl, hs.2⟩
    · cases h
  | worker w => exact pool_inv_workerStep s s' w hs h

theorem pool_inv_run (es : List PoolEvent) (s s' : Pool) (hs : Pool.Inv s)
    (h : Pool.run s es = some s') : Pool.Inv s' := by
  induction es generalizing s with
  | nil =>
    simp only [Pool.run, Option.some.injEq] at h
    exact h ▸ hs
  | cons e es ih =>
    simp only [Pool.run] at h
    split at h
    · cases h
    · rename_i t ht
      exact ih t (pool_inv_step s t e hs ht) h

/-- No worker of a list that has wholly exited is running a task. -/
theorem count_running_of_all_exited (l : List WorkerPc) (t : Nat)
    (h : ∀ pc ∈ l, pc = WorkerPc.exited) : l.count (WorkerPc.running t) = 0 := by
  rw [List.count_eq_zero]
  intro hm
  cases h _ hm

/-! ## The claims -/

/-- C1, evaluated on the code: with one worker, `parallel_for(pool, 0, 10, 2, fn)`
schedules the sub-ranges `[0, 5)` and `[5, 10)` and invokes `fn` on every
integer 0..9, while the arithmetic sequence of the range is 0, 2, 4, 6, 8; and
`parallel_for(pool, 10, 0, -1, fn)` schedules nothing, while the sequence of
the range is 10, 9, ..., 1. -/
theorem parallel_for_ignores_step :
    parallel_for 1 0 10 2 = Outcome.returned [⟨0, 10, 5⟩, ⟨5, 10, 5⟩] ∧
    (parallel_for 1 0 10 2).indices = [0, 1, 2, 3, 4, 5, 6, 7, 8, 9] ∧
    specIndices 0 10 2 = [0, 2, 4, 6, 8] ∧
    parallel_for 1 10 0 (-1) = Outcome.returned [] ∧
    (parallel_for 1 10 0 (-1)).indices = [] ∧
    specIndices 10 0 (-1) = [10, 9, 8, 7, 6, 5, 4, 3, 2, 1] := by
  decide

/-- C2: in every reachable state of the barrier protocol of a call that
schedules `k` tasks, under every interleaving, if the initiator has returned
then all `k` tasks were scheduled, every scheduled task has run `fn` over its
whole sub-range, and every one has done its final `fetch_sub`. -/
theorem initiator_returns_only_after_all_chunks (k : Nat) (es : List BarrierEvent)
    (s : Barrier) (h : Barrier.run k Barrier.init es = some s)
    (hret : s.initiator = Initiator.returned) :
    s.scheduled = k ∧ s.executed = s.scheduled ∧ s.finished = s.scheduled := by
  obtain ⟨h1, h2, _, _, h5, h6⟩ := barrier_inv_run k es _ s (barrier_inv_init k) h
  have hk := h5 (by simp [hret])
  have hf := h6 hret
  exact ⟨hk, by omega, hf⟩

/-- C2 at a concrete interleaving of a call with two tasks: the initiator
registers while one task is outstanding, stays in its wait at `ctr = 3`, and
returns only at `ctr = 1`, after both tasks have run and finished. -/
theorem initiator_returns_only_after_all_chunks_witness :
    Barrier.run 2 Barrier.init
        [BarrierEvent.schedule, BarrierEvent.runFn, BarrierEvent.schedule,
         BarrierEvent.register, BarrierEvent.finish, BarrierEvent.observe,
         BarrierEvent.runFn, BarrierEvent.finish, BarrierEvent.observe]
      = some ⟨1, 2, 2, 2, 1, Initiator.returned⟩ ∧
    ((2 : Nat) = 2 ∧ (2 : Nat) = 2 ∧ (2 : Nat) = 2) :=
  ⟨by decide,
   initiator_returns_only_after_all_chunks 2
     [BarrierEvent.schedule, BarrierEvent.runFn, BarrierEvent.schedule,
      BarrierEvent.register, BarrierEvent.finish, BarrierEvent.observe,
      BarrierEvent.runFn, BarrierEvent.finish, BarrierEvent.observe]
     ⟨1, 2, 2, 2, 1, Initiator.returned⟩ (by decide) rfl⟩

/-- C3, evaluated on the code: `parallel_for(pool, 0, 1, -1, fn)`, where the
sign of `step` disagrees with the sign of `stop - start`, computes `chunk = 1`,
does not raise, schedules one task and invokes `fn(0)`, with one worker and
with four; the spec's own example `(0, 10, -1)` does raise. -/
theorem parallel_for_mismatched_signs_not_rejected :
    chunkSize 1 0 1 (-1) = some 1 ∧
    parallel_for 1 0 1 (-1) = Outcome.returned [⟨0, 1, 1⟩] ∧
    (parallel_for 1 0 1 (-1)).indices = [0] ∧
    parallel_for 4 0 1 (-1) = Outcome.returned [⟨0, 1, 1⟩] ∧
    parallel_for 1 0 10 (-1) = Outcome.invalid_argument := by
  decide

/-- C4 as stated fails on 64-bit `long`.  With one worker,
`parallel_for(pool, LONG_MIN, LONG_MAX, 1, fn)` computes `stop - start = -1`
and `chunk = -1` and throws.  With two workers,
`parallel_for(pool, LONG_MAX - 3, LONG_MAX, 1, fn)` computes `chunk = 2`; its
second task, at `LONG_MAX - 1`, has the bound `MIN(LONG_MIN, stop)` and never
invokes `fn`, so `LONG_MAX - 1` is not visited; `i += chunk` then wraps to
`LONG_MIN`, the third task invokes `fn` outside `[start, stop)`, and the
scheduling loop never exits. -/
theorem parallel_for_unit_step_overflows :
    (LONG_MIN < LONG_MAX ∧ chunkSize64 1 LONG_MIN LONG_MAX 1 = some (-1)) ∧
    (∀ fuel, parallel_for64 fuel 1 LONG_MIN LONG_MAX 1 = some Outcome.invalid_argument) ∧
    (LONG_MAX - 3 < LONG_MAX ∧ chunkSize64 2 (LONG_MAX - 3) LONG_MAX 1 = some 2) ∧
    scheduleLoop64 3 2 LONG_MAX (LONG_MAX - 3)
      = ([⟨LONG_MAX - 3, LONG_MAX, 2⟩, ⟨LONG_MAX - 1, LONG_MAX, 2⟩, ⟨LONG_MIN, LONG_MAX, 2⟩],
         false) ∧
    ChunkTask.run64 ⟨LONG_MAX - 3, LONG_MAX, 2⟩ = [LONG_MAX - 3, LONG_MAX - 2] ∧
    ChunkTask.run64 ⟨LONG_MAX - 1, LONG_MAX, 2⟩ = [] ∧
    ChunkTask.run64 ⟨LONG_MIN, LONG_MAX, 2⟩ = [LONG_MIN, LONG_MIN + 1] ∧
    (∀ fuel, parallel_for64 fuel 2 (LONG_MAX - 3) LONG_MAX 1 = none) := by
  have hthrow : chunkSize64 1 LONG_MIN LONG_MAX 1 = some (-1) := by decide
  have hchunk : chunkSize64 2 (LONG_MAX - 3) LONG_MAX 1 = some 2 := by decide
  refine ⟨⟨by decide, hthrow⟩, ?_, ⟨by decide, hchunk⟩, by decide, by decide, by decide,
    by decide, ?_⟩
  · intro fuel
    simp only [parallel_for64, hthrow]
    rfl
  · intro fuel
    have hloop := scheduleLoop64_never_exits fuel (LONG_MAX - 3) (by decide) (by decide)
      (by decide)
    simp only [parallel_for64, hchunk, hloop]
    rfl

/-- C4, amended: for every worker count `N ≥ 1` and every `start < stop` for
which no signed 64-bit operation of the call overflows, the call
`parallel_for(pool, start, stop, 1, fn)` does not raise and its scheduling
loop exits; the sub-ranges of the tasks it schedules are consecutive,
non-empty and pairwise disjoint and tile `[start, stop)`; each task invokes
`fn` exactly on the integers of its sub-range; so `fn` is invoked
`stop - start` times, exactly once on each integer of `[start, stop)` and on
nothing else. -/
theorem parallel_for_unit_step_partition_no_overflow (N : Nat) (start stop : Int)
    (hN : 1 ≤ N) (h : start < stop) (hno : NoOverflow N start stop) (fuel : Nat)
    (hfuel : (stop - start).toNat ≤ fuel) :
    ∃ tasks, parallel_for64 fuel N start stop 1 = some (Outcome.returned tasks) ∧
      Tiles start stop (tasks.map ChunkTask.range64) ∧
      (tasks.map ChunkTask.range64).Pairwise (fun a b => a.2 ≤ b.1) ∧
      (∀ t ∈ tasks, ∀ x, x ∈ t.run64 ↔ t.range64.1 ≤ x ∧ x < t.range64.2) ∧
      ((visited64 tasks).length : Int) = stop - start ∧
      ∀ x, (visited64 tasks).count x = if start ≤ x ∧ x < stop then 1 else 0 := by
  obtain ⟨h1, h2, h3, h4⟩ := hno
  obtain ⟨chunk, hchunk, hpos⟩ := chunkSize_unit_step N start stop hN h
  have hchunk64 : chunkSize64 N start stop 1 = some chunk := by
    rw [chunkSize64_unit_step N start stop hN h h1 h2 h3, hchunk]
  have hnot : ¬ chunk ≤ 0 := by omega
  obtain ⟨hloop, htask⟩ := scheduleLoop64_eq fuel chunk stop start hpos h1 hfuel
    (h4 chunk hchunk)
  have hmap : (scheduleLoop fuel chunk stop start).map ChunkTask.range64
      = (scheduleLoop fuel chunk stop start).map ChunkTask.range :=
    List.map_congr_left (fun t ht => (htask t ht).2)
  have hv64 := visited64_eq (scheduleLoop fuel chunk stop start) (fun t ht => (htask t ht).1)
  have htiles := tiles_scheduleLoop fuel chunk stop start hpos (le_of_lt h) hfuel
  have hvis := visited_scheduleLoop fuel chunk stop start hpos hfuel
  refine ⟨scheduleLoop fuel chunk stop start, ?_, ?_, ?_, ?_, ?_, ?_⟩
  · simp only [parallel_for64, hchunk64, hnot, if_false, hloop, if_true]
  · rw [hmap]
    exact htiles
  · rw [hmap]
    exact pairwise_of_tiles _ _ _ htiles
  · intro t ht x
    rw [(htask t ht).1, (htask t ht).2, run_eq, mem_intsFrom]
    omega
  · rw [hv64, hvis, length_intsFrom]
    omega
  · intro x
    rw [hv64, hvis, count_intsFrom]
    have e : start + (((stop - start).toNat : Nat) : Int) = stop := by omega
    rw [e]

/-- No operation of `parallel_for(pool, 0, 100, 1, fn)` with four workers
overflows: `chunk = 25` and the scheduling loop reaches at most 100. -/
theorem noOverflow_4_0_100 : NoOverflow 4 0 100 := by
  refine ⟨by decide, by decide, by decide, ?_⟩
  intro chunk hc m hm
  have h25 : chunkSize 4 0 100 1 = some 25 := by decide
  rw [h25] at hc
  cases hc
  simp only [LONG_MAX]
  omega

/-- C4, amended, at the spec's scenario: four workers and
`parallel_for(pool, 0, 100, 1, fn)` schedule four tasks and invoke `fn` on
0, 1, ..., 99, once each. -/
theorem parallel_for_unit_step_partition_no_overflow_witness :
    ((1 ≤ 4) ∧ ((0 : Int) < 100) ∧ NoOverflow 4 0 100 ∧ ((100 : Int) - 0).toNat ≤ 100) ∧
    (∃ tasks, parallel_for64 100 4 0 100 1 = some (Outcome.returned tasks) ∧
      Tiles 0 100 (tasks.map ChunkTask.range64) ∧
      (tasks.map ChunkTask.range64).Pairwise (fun a b => a.2 ≤ b.1) ∧
      (∀ t ∈ tasks, ∀ x, x ∈ t.run64 ↔ t.range64.1 ≤ x ∧ x < t.range64.2) ∧
      ((visited64 tasks).length : Int) = 100 - 0 ∧
      ∀ x, (visited64 tasks).count x = if 0 ≤ x ∧ x < 100 then 1 else 0) ∧
    parallel_for64 100 4 0 100 1
      = some (Outcome.returned [⟨0, 100, 25⟩, ⟨25, 100, 25⟩, ⟨50, 100, 25⟩, ⟨75, 100, 25⟩]) ∧
    visited64 [⟨0, 100, 25⟩, ⟨25, 100, 25⟩, ⟨50, 100, 25⟩, ⟨75, 100, 25⟩] = intsFrom 0 100 :=
  ⟨⟨by decide, by decide, noOverflow_4_0_100, by decide⟩,
   parallel_for_unit_step_partition_no_overflow 4 0 100 (by decide) (by decide)
     noOverflow_4_0_100 100 (by decide),
   by decide, by decide⟩

/-- C5 as stated fails: in a pool of one worker, a task is scheduled, teardown
sets `exiting_`, and the worker, entering its loop, sees `exiting_` and leaves
`worker_loop` while the queue still holds the task, which is never executed. -/
theorem worker_exits_with_nonempty_queue :
    Pool.run (Pool.init 1)
        [PoolEvent.schedule 7, PoolEvent.teardown, PoolEvent.worker 0, PoolEvent.worker 0]
      = some ⟨[7], true, none, [WorkerPc.exited], [7], []⟩ := by
  decide

/-- C5, amended: in every reachable state of a pool of `n` workers, a worker
has left its run loop only if teardown has set `exiting_`; a worker that is at
the loop test of line 114 or has just woken at line 120 leaves the loop at its
next step when `exiting_` is set, whatever the queue holds and leaving the
queue as it is, and goes on to the queue test when `exiting_` is not set; no
task is lost or duplicated, each scheduled task being in the queue, held by a
running worker, or executed; so once every worker has exited, the scheduled
tasks that were not executed are exactly those still in the queue. -/
theorem worker_exits_only_when_exiting (n : Nat) (es : List PoolEvent) (s : Pool)
    (h : Pool.run (Pool.init n) es = some s) :
    (WorkerPc.exited ∈ s.workers → s.exiting = true) ∧
    (∀ w, s.workers[w]? = some WorkerPc.outer ∨ s.workers[w]? = some WorkerPc.woken →
      s.exiting = true →
      Pool.step s (PoolEvent.worker w)
        = some { s with mu := none, workers := s.workers.set w WorkerPc.exited }) ∧
    (∀ w, s.workers[w]? = some WorkerPc.outer ∨ s.workers[w]? = some WorkerPc.woken →
      s.exiting = false →
      Pool.step s (PoolEvent.worker w)
        = some { s with workers := s.workers.set w WorkerPc.inner }) ∧
    (∀ t, s.scheduled.count t = s.queue.count t + s.runningCount t + s.executed.count t) ∧
    (s.allExited → ∀ t, s.scheduled.count t = s.queue.count t + s.executed.count t) := by
  obtain ⟨hx, hc⟩ := pool_inv_run es _ s (pool_inv_init n) h
  refine ⟨hx, ?_, ?_, hc, ?_⟩
  · intro w hw he
    rcases hw with hw | hw <;> simp [Pool.step, Pool.workerStep, hw, he]
  · intro w hw he
    rcases hw with hw | hw <;> simp [Pool.step, Pool.workerStep, hw, he]
  · intro hall t
    have h0 := count_running_of_all_exited s.workers t hall
    have := hc t
    simp only [Pool.runningCount] at this
    omega

/-- C5, amended, at a concrete interleaving: the one worker waits on the empty
queue, task 7 is scheduled and teardown sets `exiting_`, the worker wakes at
line 120 and, at its next step, exits leaving task 7 in the queue. -/
theorem worker_exits_only_when_exiting_witness :
    ∃ s, Pool.run (Pool.init 1)
        [PoolEvent.worker 0, PoolEvent.worker 0, PoolEvent.worker 0, PoolEvent.schedule 7,
         PoolEvent.teardown, PoolEvent.worker 0] = some s ∧
      s = ⟨[7], true, some 0, [WorkerPc.woken], [7], []⟩ ∧
      Pool.step s (PoolEvent.worker 0) = some ⟨[7], true, none, [WorkerPc.exited], [7], []⟩ ∧
      ((WorkerPc.exited ∈ s.workers → s.exiting = true) ∧
       (∀ w, s.workers[w]? = some WorkerPc.outer ∨ s.workers[w]? = some WorkerPc.woken →
         s.exiting = true →
         Pool.step s (PoolEvent.worker w)
           = some { s with mu := none, workers := s.workers.set w WorkerPc.exited }) ∧
       (∀ w, s.workers[w]? = some WorkerPc.outer ∨ s.workers[w]? = some WorkerPc.woken →
         s.exiting = false →
         Pool.step s (PoolEvent.worker w)
           = some { s with workers := s.workers.set w WorkerPc.inner }) ∧
       (∀ t, s.scheduled.count t = s.queue.count t + s.runningCount t + s.executed.count t) ∧
       (s.allExited → ∀ t, s.scheduled.count t = s.queue.count t + s.executed.count t)) :=
  ⟨⟨[7], true, some 0, [WorkerPc.woken], [7], []⟩, by decide, rfl, by decide,
   worker_exits_only_when_exiting 1
     [PoolEvent.worker 0, PoolEvent.worker 0, PoolEvent.worker 0, PoolEvent.schedule 7,
      PoolEvent.teardown, PoolEvent.worker 0]
     ⟨[7], true, some 0, [WorkerPc.woken], [7], []⟩ (by decide)⟩

/-- The value `ceil(100 / 2) = 50`. -/
theorem specCeil_100_2 : specCeil 100 2 = 50 := by
  simp only [specCeil, Int.ceil_eq_iff]
  norm_num

/-- The value `ceil(50 / 4) = 13`. -/
theorem specCeil_50_4 : specCeil 50 4 = 13 := by
  simp only [specCeil, Int.ceil_eq_iff]
  norm_num

/-- The value `ceil(50 / 13) = 4`. -/
theorem specCeil_50_13 : specCeil 50 13 = 4 := by
  simp only [specCeil, Int.ceil_eq_iff]
  norm_num

/-- C6, evaluated on the code: with four workers,
`parallel_for(pool, 0, 100, 2, fn)` has `total = ceil(100 / 2) = 50` and
`chunk = ceil(50 / 4) = 13`, so `ceil(total / chunk) = 4`, but the call
schedules 8 tasks, more than `N + 1 = 5`. -/
theorem parallel_for_chunk_count_exceeds_bound :
    chunkSize 4 0 100 2 = some 13 ∧
    (parallel_for 4 0 100 2).numTasks = 8 ∧
    specCeil (100 - 0) 2 = 50 ∧
    specCeil (specCeil (100 - 0) 2) 4 = 13 ∧
    specCeil (specCeil (100 - 0) 2) (specCeil (specCeil (100 - 0) 2) 4) = 4 ∧
    ¬ (parallel_for 4 0 100 2).numTasks ≤ 4 + 1 := by
  have e : (100 : Int) - 0 = 100 := by norm_num
  rw [e, specCeil_100_2, specCeil_50_4, specCeil_50_13]
  decide

/-- C7, evaluated on the code: with `step = 0`, whatever the worker count and
the range, line 22 divides by zero; no value of `chunk` is computed and the
check of line 25 is not reached. -/
theorem parallel_for_zero_step_undefined (N : Nat) (start stop : Int) :
    chunkSize N start stop 0 = none ∧ parallel_for N start stop 0 = Outcome.undefined := by
  have h : chunkSize N start stop 0 = none := by simp [chunkSize]
  exact ⟨h, by simp [parallel_for, h]⟩

/-- C8, evaluated on the code: for the empty range `start = stop = 0` with a
negative step, lines 22-23 compute `chunk = 2` (step -1) or `chunk = 1` (step
-2, and step -1 with three workers), not 0; the call does not raise and
returns having scheduled nothing.  With a positive step it computes 0 and
raises. -/
theorem parallel_for_empty_range_negative_step :
    chunkSize 1 0 0 (-1) = some 2 ∧
    parallel_for 1 0 0 (-1) = Outcome.returned [] ∧
    chunkSize 1 0 0 (-2) = some 1 ∧
    parallel_for 1 0 0 (-2) = Outcome.returned [] ∧
    chunkSize 3 0 0 (-1) = some 1 ∧
    parallel_for 3 0 0 (-1) = Outcome.returned [] ∧
    chunkSize 3 0 0 1 = some 0 ∧
    parallel_for 3 0 0 1 = Outcome.invalid_argument := by
  decide

/-- C9: in every reachable state of the barrier protocol, under every
interleaving, no more tasks have finished than were scheduled,
`ctr = 2 * (tasks scheduled and not yet finished) + (1 if the initiator has
done its fetch_add(1), else 0)`; so `ctr` is never negative, and `ctr = 1`
holds exactly when the initiator has registered and no task is outstanding. -/
theorem barrier_counter_encoding (k : Nat) (es : List BarrierEvent) (s : Barrier)
    (h : Barrier.run k Barrier.init es = some s) :
    s.finished ≤ s.scheduled ∧
    s.ctr = 2 * ((s.scheduled - s.finished : Nat) : Int)
      + (if s.initiator = Initiator.scheduling then 0 else 1) ∧
    0 ≤ s.ctr ∧
    (s.ctr = 1 ↔ s.initiator ≠ Initiator.scheduling ∧ s.scheduled - s.finished = 0) := by
  obtain ⟨h1, h2, _, h4, _, _⟩ := barrier_inv_run k es _ s (barrier_inv_init k) h
  simp only [Barrier.outstanding, Barrier.registered] at h4
  refine ⟨by omega, h4, ?_, ?_⟩
  · split at h4 <;> omega
  · split at h4
    · rename_i hi
      simp only [hi, ne_eq, not_true_eq_false, false_and, iff_false]
      omega
    · rename_i hi
      simp only [ne_eq, hi, not_false_eq_true, true_and]
      omega

/-- C9 at a concrete interleaving: two tasks scheduled, one finished, the
initiator registered, `ctr = 2 * 1 + 1 = 3`. -/
theorem barrier_counter_encoding_witness :
    Barrier.run 2 Barrier.init
        [BarrierEvent.schedule, BarrierEvent.schedule, BarrierEvent.runFn,
         BarrierEvent.register, BarrierEvent.finish]
      = some ⟨3, 2, 1, 1, 0, Initiator.waiting⟩ ∧
    ((1 : Nat) ≤ 2 ∧
     (3 : Int) = 2 * ((2 - 1 : Nat) : Int)
       + (if Initiator.waiting = Initiator.scheduling then 0 else 1) ∧
     (0 : Int) ≤ 3 ∧
     ((3 : Int) = 1 ↔ Initiator.waiting ≠ Initiator.scheduling ∧ 2 - 1 = 0)) :=
  ⟨by decide,
   barrier_counter_encoding 2
     [BarrierEvent.schedule, BarrierEvent.schedule, BarrierEvent.runFn,
      BarrierEvent.register, BarrierEvent.finish]
     ⟨3, 2, 1, 1, 0, Initiator.waiting⟩ (by decide)⟩

/-- C10: for every worker count `N ≥ 1` and every `start`, `stop` and non-zero
`step` for which `parallel_for` does not raise, the call schedules tasks that
invoke `fn` exactly once on every integer `i` with `start ≤ i < stop` and on
no other value, whatever `step` is; and when `stop ≤ start` it schedules no
task, never invokes `fn`, and the initiator's `fetch_add(1)` finds `ctr = 0`,
so the call returns at once. -/
theorem parallel_for_indices_independent_of_step (N : Nat) (start stop step : Int)
    (hN : 1 ≤ N) (hstep : step ≠ 0)
    (hok : parallel_for N start stop step ≠ Outcome.invalid_argument) :
    ∃ tasks, parallel_for N start stop step = Outcome.returned tasks ∧
      (∀ x, (visited tasks).count x = if start ≤ x ∧ x < stop then 1 else 0) ∧
      (stop ≤ start → tasks = [] ∧ visited tasks = [] ∧
        Barrier.run tasks.length Barrier.init [BarrierEvent.register]
          = some ⟨1, 0, 0, 0, 0, Initiator.returned⟩) := by
  have hN0 : N ≠ 0 := by omega
  obtain ⟨chunk, hchunk⟩ : ∃ chunk, chunkSize N start stop step = some chunk :=
    ⟨_, by simp only [chunkSize, hstep, hN0, if_false]; rfl⟩
  have hpos : 0 < chunk := by
    by_contra hle
    have hle' : chunk ≤ 0 := by omega
    apply hok
    simp only [parallel_for, hchunk, hle', if_true]
  have hnot : ¬ chunk ≤ 0 := by omega
  have hvis := visited_scheduleLoop (stop - start).toNat chunk stop start hpos (le_refl _)
  refine ⟨scheduleLoop (stop - start).toNat chunk stop start, ?_, ?_, ?_⟩
  · simp only [parallel_for, hchunk, hnot, if_false]
  · intro x
    rw [hvis, count_intsFrom]
    by_cases hx : start ≤ x ∧ x < stop
    · have hx' : start ≤ x ∧ x < start + (((stop - start).toNat : Nat) : Int) := by omega
      rw [if_pos hx, if_pos hx']
    · have hx' : ¬ (start ≤ x ∧ x < start + (((stop - start).toNat : Nat) : Int)) := by omega
      rw [if_neg hx, if_neg hx']
  · intro hle
    have h0 : (stop - start).toNat = 0 := by omega
    rw [h0]
    exact ⟨rfl, rfl, rfl⟩

/-- C10 at two workers and `parallel_for(pool, 0, 10, 3, fn)`: the call does
not raise and invokes `fn` on every integer 0..9. -/
theorem parallel_for_indices_independent_of_step_witness :
    (1 ≤ 2 ∧ (3 : Int) ≠ 0 ∧ parallel_for 2 0 10 3 ≠ Outcome.invalid_argument) ∧
    (∃ tasks, parallel_for 2 0 10 3 = Outcome.returned tasks ∧
      (∀ x, (visited tasks).count x = if 0 ≤ x ∧ x < 10 then 1 else 0) ∧
      ((10 : Int) ≤ 0 → tasks = [] ∧ visited tasks = [] ∧
        Barrier.run tasks.length Barrier.init [BarrierEvent.register]
          = some ⟨1, 0, 0, 0, 0, Initiator.returned⟩)) ∧
    (parallel_for 2 0 10 3).indices = [0, 1, 2, 3, 4, 5, 6, 7, 8, 9] :=
  ⟨⟨by decide, by decide, by decide⟩,
   parallel_for_indices_independent_of_step 2 0 10 3 (by decide) (by decide) (by decide),
   by decide⟩

end MiniOpenMP
